import Mathlib

/-!
# Verification of the form-prefill dependency-resolution core

Shallow embedding of the dependency-graph resolution module
(`dagTraversal.ts`), the data-source abstraction (`dataSourceRegistry.ts`)
and the source categorizer (`useDataSources.ts`) of the form-prefill
repository, together with proofs of the specified properties.

Modelling conventions:
* JavaScript objects used as string-keyed maps (`FormGraph`) are modelled as
  association lists; property access is first-match lookup, `Object.keys` /
  `Object.values` are the projections in insertion order (form identifiers
  are non-index string keys, so JS preserves insertion order).
* A JavaScript `Set` is modelled as an insertion-ordered duplicate-free
  list: `add` appends when the element is new, iteration order is insertion
  order.
* JavaScript strings are Lean `String`s; `split('_')`, `charAt(0).
  toUpperCase() + slice(1)` and `join(' ')` are embedded as structurally
  recursive functions over the character list (`toUpperCase` on the ASCII
  property names used here coincides with `Char.toUpper`).
* The two recursive traversals are given explicit fuel and return `none`
  when the fuel runs out; the termination claims are discharged by proving
  an explicit fuel bound (linear in the graph size) sufficient.
-/

namespace FormPrefill

/-- `FieldType` from `types.ts`. -/
inductive FieldType where
  | text | email | date | checkbox | button | object | number
deriving DecidableEq, Repr

/-- `FormField` from `types.ts`. -/
structure FormField where
  id : String
  label : String
  type : FieldType
deriving DecidableEq, Repr

/-- `Form` from `types.ts`. -/
structure Form where
  id : String
  name : String
  fields : List FormField
  dependencies : List String
deriving DecidableEq, Repr

/-- `FormGraph` from `types.ts`: a string-keyed object mapping form ids to
forms, as an insertion-ordered association list. -/
abbrev FormGraph := List (String × Form)

/-- JS property access `formGraph[id]`: first entry with the given key. -/
def FormGraph.findForm (g : FormGraph) (id : String) : Option Form :=
  match g with
  | [] => none
  | (k, f) :: rest => if k = id then some f else FormGraph.findForm rest id

/-- `Object.keys(formGraph)` in insertion order. -/
def FormGraph.keys (g : FormGraph) : List String := g.map Prod.fst

/-- `Object.values(formGraph)` in insertion order. -/
def FormGraph.values (g : FormGraph) : List Form := g.map Prod.snd

/-- JS `Set.add`: append if not already present (insertion order kept). -/
def insertUniq (l : List String) (x : String) : List String :=
  if x ∈ l then l else l ++ [x]

/-- `GlobalData` from `types.ts`. -/
structure GlobalData where
  actionProperties : List String
  clientOrgProperties : List String
deriving DecidableEq, Repr

/-- `DataField` from `types.ts`. -/
structure DataField where
  id : String
  label : String
  type : FieldType
  path : String
deriving DecidableEq, Repr

/-- `DataSourceType` from `types.ts`. -/
inductive DataSourceType where
  | form | global | custom
deriving DecidableEq, Repr

/-! ## `dagTraversal.ts` -/

/-- The `while` loop of `getDependencies`: pop the queue, skip visited ids,
mark visited, look the form up (missing forms are skipped), and add every
dependency to the result set and the queue.  `fuel` bounds the number of
loop iterations; `none` means the fuel ran out. -/
def getDependenciesAux (g : FormGraph) :
    Nat → List String → List String → List String → Option (List String)
  | _, [], _, deps => some deps
  | 0, _ :: _, _, _ => none
  | fuel + 1, cur :: rest, visited, deps =>
    if cur ∈ visited then
      getDependenciesAux g fuel rest visited deps
    else
      match g.findForm cur with
      | none => getDependenciesAux g fuel rest (insertUniq visited cur) deps
      | some form =>
        getDependenciesAux g fuel (rest ++ form.dependencies)
          (insertUniq visited cur) (form.dependencies.foldl insertUniq deps)

/-- Fuel sufficient for `getDependenciesAux`: one initial pop plus one pop
per dependency edge in the graph. -/
def depFuel (g : FormGraph) : Nat :=
  (g.map (fun p => p.2.dependencies.length)).sum + 1

/-- `getDependencies` from `dagTraversal.ts`: BFS over the dependency graph
starting at `targetFormId`, returning every id ever added as a dependency. -/
def getDependencies (targetFormId : String) (g : FormGraph) : List String :=
  (getDependenciesAux g (depFuel g) [targetFormId] [] []).getD []

/-- `getDirectDependencies` from `dagTraversal.ts`:
`new Set(form.dependencies)`, or the empty set when the target is absent. -/
def getDirectDependencies (targetFormId : String) (g : FormGraph) :
    List String :=
  match g.findForm targetFormId with
  | none => []
  | some form => form.dependencies.foldl insertUniq []

/-- `getTransitiveDependencies` from `dagTraversal.ts`: the full dependency
set with every direct dependency deleted (deletion keeps the order of the
remaining elements). -/
def getTransitiveDependencies (targetFormId : String) (g : FormGraph) :
    List String :=
  (getDependencies targetFormId g).filter
    (fun x => !((getDirectDependencies targetFormId g).contains x))

/-! ## Basic facts about the modelled `Set` -/

theorem mem_insertUniq {l : List String} {x y : String} :
    y ∈ insertUniq l x ↔ y ∈ l ∨ y = x := by
  unfold insertUniq
  by_cases h : x ∈ l
  · simp only [if_pos h]
    constructor
    · exact Or.inl
    · rintro (hy | rfl)
      · exact hy
      · exact h
  · simp [if_neg h]

theorem mem_foldl_insertUniq {ds : List String} :
    ∀ {l : List String} {y : String},
      y ∈ ds.foldl insertUniq l ↔ y ∈ l ∨ y ∈ ds := by
  induction ds with
  | nil => simp
  | cons d ds ih =>
    intro l y
    simp only [List.foldl_cons]
    rw [ih, mem_insertUniq]
    simp only [List.mem_cons]
    tauto

theorem subset_insertUniq (l : List String) (x : String) :
    l ⊆ insertUniq l x := by
  intro y hy; exact mem_insertUniq.mpr (Or.inl hy)

theorem self_mem_insertUniq (l : List String) (x : String) :
    x ∈ insertUniq l x :=
  mem_insertUniq.mpr (Or.inr rfl)

/-! ## The BFS accumulator only grows, and the fuel bound suffices -/

theorem getDependenciesAux_acc_subset (g : FormGraph) :
    ∀ (fuel : Nat) (queue visited deps res : List String),
      getDependenciesAux g fuel queue visited deps = some res →
      deps ⊆ res := by
  intro fuel
  induction fuel with
  | zero =>
    intro queue visited deps res h
    cases queue with
    | nil => simp only [getDependenciesAux] at h; cases h; exact fun _ h => h
    | cons a l => simp [getDependenciesAux] at h
  | succ fuel ih =>
    intro queue visited deps res h
    cases queue with
    | nil => simp only [getDependenciesAux] at h; cases h; exact fun _ h => h
    | cons cur rest =>
      simp only [getDependenciesAux] at h
      by_cases hv : cur ∈ visited
      · rw [if_pos hv] at h
        exact ih rest visited deps res h
      · rw [if_neg hv] at h
        cases hfind : g.findForm cur with
        | none =>
          rw [hfind] at h
          exact ih rest (insertUniq visited cur) deps res h
        | some form =>
          rw [hfind] at h
          have h2 := ih (rest ++ form.dependencies) (insertUniq visited cur)
            (form.dependencies.foldl insertUniq deps) res h
          intro y hy
          exact h2 (mem_foldl_insertUniq.mpr (Or.inl hy))

/-- Dependency-edge count of the entries whose key is still unvisited: the
potential that bounds the pending work of the BFS. -/
def pendingDeps (g : FormGraph) (visited : List String) : Nat :=
  match g with
  | [] => 0
  | p :: rest =>
    (if p.1 ∈ visited then 0 else p.2.dependencies.length) +
      pendingDeps rest visited

theorem pendingDeps_mono (g : FormGraph) :
    ∀ {v w : List String}, v ⊆ w → pendingDeps g w ≤ pendingDeps g v := by
  intro v w hvw
  induction g with
  | nil => simp [pendingDeps]
  | cons p rest ih =>
    simp only [pendingDeps]
    by_cases hv : p.1 ∈ v
    · rw [if_pos hv, if_pos (hvw hv)]
      omega
    · rw [if_neg hv]
      by_cases hw : p.1 ∈ w
      · rw [if_pos hw]; omega
      · rw [if_neg hw]; omega

theorem pendingDeps_visit (g : FormGraph) :
    ∀ {visited : List String} {cur : String} {form : Form},
      cur ∉ visited → g.findForm cur = some form →
      pendingDeps g (insertUniq visited cur) + form.dependencies.length ≤
        pendingDeps g visited := by
  intro visited cur form hv hfind
  induction g with
  | nil => simp [FormGraph.findForm] at hfind
  | cons p rest ih =>
    rw [FormGraph.findForm] at hfind
    simp only [pendingDeps]
    by_cases hk : p.1 = cur
    · rw [if_pos hk] at hfind
      cases hfind
      subst hk
      rw [if_pos (self_mem_insertUniq visited p.1), if_neg hv]
      have := pendingDeps_mono rest (subset_insertUniq visited p.1)
        (v := visited) (w := insertUniq visited p.1)
      omega
    · rw [if_neg hk] at hfind
      have hmem : p.1 ∈ insertUniq visited cur ↔ p.1 ∈ visited := by
        rw [mem_insertUniq]
        constructor
        · rintro (h | h)
          · exact h
          · exact absurd h hk
        · exact Or.inl
      have := ih hfind
      by_cases hvis : p.1 ∈ visited
      · rw [if_pos hvis, if_pos (hmem.mpr hvis)]
        omega
      · rw [if_neg hvis, if_neg (fun h => hvis (hmem.mp h))]
        omega

theorem getDependenciesAux_isSome (g : FormGraph) :
    ∀ (fuel : Nat) (queue visited deps : List String),
      queue.length + pendingDeps g visited ≤ fuel →
      (getDependenciesAux g fuel queue visited deps).isSome := by
  intro fuel
  induction fuel with
  | zero =>
    intro queue visited deps h
    cases queue with
    | nil => simp [getDependenciesAux]
    | cons a l => simp at h
  | succ fuel ih =>
    intro queue visited deps h
    cases queue with
    | nil => simp [getDependenciesAux]
    | cons cur rest =>
      simp only [List.length_cons] at h
      simp only [getDependenciesAux]
      by_cases hv : cur ∈ visited
      · rw [if_pos hv]
        exact ih rest visited deps (by omega)
      · rw [if_neg hv]
        cases hfind : g.findForm cur with
        | none =>
          have hle := pendingDeps_mono g (subset_insertUniq visited cur)
          exact ih rest (insertUniq visited cur) deps (by omega)
        | some form =>
          have hle := pendingDeps_visit g hv hfind
          have hlen : (rest ++ form.dependencies).length =
              rest.length + form.dependencies.length := List.length_append _ _
          exact ih (rest ++ form.dependencies) (insertUniq visited cur)
            (form.dependencies.foldl insertUniq deps) (by omega)

theorem pendingDeps_nil_le (g : FormGraph) :
    pendingDeps g [] ≤ (g.map (fun p => p.2.dependencies.length)).sum := by
  induction g with
  | nil => simp [pendingDeps]
  | cons p rest ih =>
    simp only [pendingDeps, List.map_cons, List.sum_cons]
    rw [if_neg (List.not_mem_nil p.1)]
    omega

/-- The BFS of `getDependencies` never exhausts the chosen fuel. -/
theorem getDependencies_fuel_sufficient (g : FormGraph) (t : String) :
    (getDependenciesAux g (depFuel g) [t] [] []).isSome := by
  apply getDependenciesAux_isSome
  have := pendingDeps_nil_le g
  simp only [List.length_cons, List.length_nil, depFuel]
  omega

/-- The first iteration of the BFS loop: pop the root, mark it visited, and
seed the queue and the result set with its dependency list. -/
theorem getDependenciesAux_step (g : FormGraph) (fuel : Nat) (t : String) :
    getDependenciesAux g (fuel + 1) [t] [] [] =
      match g.findForm t with
      | none => some []
      | some form =>
        getDependenciesAux g fuel form.dependencies [t]
          (form.dependencies.foldl insertUniq []) := by
  cases hfind : g.findForm t with
  | none =>
    simp only [getDependenciesAux]
    rw [if_neg (List.not_mem_nil t)]
    rw [hfind]
  | some form =>
    simp only [getDependenciesAux]
    rw [if_neg (List.not_mem_nil t)]
    rw [hfind]
    simp [insertUniq]

/-- Every direct dependency is also in the full reachable set: the BFS seeds
its result with the root's dependency list. -/
theorem getDirect_subset_getDependencies (t : String) (g : FormGraph) :
    ∀ {x : String}, x ∈ getDirectDependencies t g → x ∈ getDependencies t g := by
  intro x hx
  unfold getDirectDependencies at hx
  cases hfind : g.findForm t with
  | none => rw [hfind] at hx; simp at hx
  | some form =>
    rw [hfind] at hx
    obtain ⟨res, hres⟩ :=
      Option.isSome_iff_exists.mp (getDependencies_fuel_sufficient g t)
    have hN : depFuel g = (g.map (fun p => p.2.dependencies.length)).sum + 1 :=
      rfl
    have hstep := getDependenciesAux_step g
      ((g.map (fun p => p.2.dependencies.length)).sum) t
    rw [← hN, hres, hfind] at hstep
    have hsub := getDependenciesAux_acc_subset g _ _ _ _ _ hstep.symm
    have : getDependencies t g = res := by
      unfold getDependencies
      rw [hres]
      rfl
    rw [this]
    exact hsub hx

/-- Membership in the transitive set: in the full set but not direct. -/
theorem mem_getTransitiveDependencies {t : String} {g : FormGraph}
    {x : String} :
    x ∈ getTransitiveDependencies t g ↔
      x ∈ getDependencies t g ∧ x ∉ getDirectDependencies t g := by
  unfold getTransitiveDependencies
  rw [List.mem_filter]
  constructor
  · rintro ⟨h1, h2⟩
    refine ⟨h1, fun hx => ?_⟩
    rw [Bool.not_eq_true', ← Bool.not_eq_true] at h2
    exact h2 (List.elem_iff.mpr hx)
  · rintro ⟨h1, h2⟩
    refine ⟨h1, ?_⟩
    rw [Bool.not_eq_true', ← Bool.not_eq_true]
    exact fun hc => h2 (List.elem_iff.mp hc)

/-! ## Claim C1: self-membership of the BFS result on cyclic graphs -/

/-- The two-node cycle A → B → A (spec §8 scenario 2). -/
def cyclicPair : FormGraph :=
  [("form-a",
    { id := "form-a", name := "Form A", fields := [],
      dependencies := ["form-b"] }),
   ("form-b",
    { id := "form-b", name := "Form B", fields := [],
      dependencies := ["form-a"] })]

/-- C1: the claim (and the function's own doc comment, "excluding itself")
says the target never appears in `getDependencies(target, graph)`, yet on
the cyclic graph A → B → A the BFS adds every popped dependency to the
result, so the result for target `"form-a"` is `{"form-b", "form-a"}` and
contains the target itself. -/
theorem getDependencies_contains_target_on_cycle :
    getDependencies "form-a" cyclicPair = ["form-b", "form-a"] ∧
      "form-a" ∈ getDependencies "form-a" cyclicPair := by
  decide

/-! ## Claim C3: direct/transitive partition of the full dependency set -/

/-- C3: for every target and graph, the direct and transitive dependency
sets are disjoint and their union is exactly the full reachable set
computed by `getDependencies` (the transitive set is defined by deleting
the direct set from the full set, and every direct dependency is seeded
into the full set by the first BFS iteration). -/
theorem direct_transitive_partition (t : String) (g : FormGraph) :
    (getDirectDependencies t g).toFinset ∩
        (getTransitiveDependencies t g).toFinset = ∅ ∧
      (getDirectDependencies t g).toFinset ∪
          (getTransitiveDependencies t g).toFinset =
        (getDependencies t g).toFinset := by
  constructor
  · ext x
    simp only [Finset.mem_inter, List.mem_toFinset, Finset.not_mem_empty,
      iff_false, not_and]
    intro hd ht
    exact (mem_getTransitiveDependencies.mp ht).2 hd
  · ext x
    simp only [Finset.mem_union, List.mem_toFinset]
    constructor
    · rintro (hd | ht)
      · exact getDirect_subset_getDependencies t g hd
      · exact (mem_getTransitiveDependencies.mp ht).1
    · intro hall
      by_cases hd : x ∈ getDirectDependencies t g
      · exact Or.inl hd
      · exact Or.inr (mem_getTransitiveDependencies.mpr ⟨hall, hd⟩)

/-! ## `hasCircularDependencies` from `dagTraversal.ts`

The inner `hasCycle` recursion adds the node to `visited` and to the
`recursionStack`, then walks the dependency list: an unvisited dependency
is recursed into, a visited dependency that is on the recursion stack
reports a cycle, any other visited dependency is skipped.  The JS code
mutates one shared `visited` set (threaded here through every call) and
add/delete-balances the shared `recursionStack` (modelled here by passing
the extended stack down and discarding it on return; `hasCycle` is only
ever invoked on unvisited ids, and every id on the stack is also in
`visited`, so the add is a genuine append and the final delete restores
exactly the caller's stack). -/

/-- The `for (const depId of form.dependencies)` loop of `hasCycle`;
`next` is the recursive call at the remaining fuel.  Returns the cycle
flag together with the updated `visited` set. -/
def depsLoop (next : String → List String → Option (Bool × List String)) :
    List String → List String → List String → Option (Bool × List String)
  | [], _, visited => some (false, visited)
  | dep :: rest, stack, visited =>
    if dep ∈ visited then
      if dep ∈ stack then some (true, visited)
      else depsLoop next rest stack visited
    else
      match next dep visited with
      | none => none
      | some (true, visited₂) => some (true, visited₂)
      | some (false, visited₂) => depsLoop next rest stack visited₂

/-- The recursive `hasCycle` helper of `hasCircularDependencies`, with
explicit fuel bounding the recursion depth. -/
def hasCycleAux (g : FormGraph) :
    Nat → String → List String → List String → Option (Bool × List String)
  | 0, _, _, _ => none
  | fuel + 1, formId, stack, visited =>
    match g.findForm formId with
    | none => some (false, insertUniq visited formId)
    | some form =>
      depsLoop (fun d v => hasCycleAux g fuel d (insertUniq stack formId) v)
        form.dependencies (insertUniq stack formId)
        (insertUniq visited formId)

/-- The `for (const formId of Object.keys(formGraph))` loop of
`hasCircularDependencies`, threading the shared `visited` set. -/
def hasCircularDependenciesAux (g : FormGraph) (fuel : Nat) :
    List String → List String → Option Bool
  | [], _ => some false
  | k :: rest, visited =>
    if k ∈ visited then hasCircularDependenciesAux g fuel rest visited
    else
      match hasCycleAux g fuel k [] visited with
      | none => none
      | some (true, _) => some true
      | some (false, visited') =>
        hasCircularDependenciesAux g fuel rest visited'

/-- Every id the DFS can be invoked on: the keys and every declared
dependency identifier. -/
def univIds (g : FormGraph) : List String :=
  g.map Prod.fst ++ (g.map (fun p => p.2.dependencies)).flatten

/-- Fuel sufficient for the DFS: every recursive `hasCycle` call is on an
id that is a key or a declared dependency and that was not yet visited. -/
def cycleFuel (g : FormGraph) : Nat :=
  (univIds g).length + 1

/-- `hasCircularDependencies` from `dagTraversal.ts`. -/
def hasCircularDependencies (g : FormGraph) : Bool :=
  (hasCircularDependenciesAux g (cycleFuel g) (FormGraph.keys g) []).getD false

/-! ## Specification of dependency cycles -/

/-- A dependency edge: `a`'s form record is present in the graph and its
dependency list names `b`. -/
def isEdge (g : FormGraph) (a b : String) : Prop :=
  ∃ f, g.findForm a = some f ∧ b ∈ f.dependencies

/-- Nonempty paths along dependency edges. -/
inductive Reaches (g : FormGraph) : String → String → Prop where
  | single {a b : String} : isEdge g a b → Reaches g a b
  | head {a b c : String} : isEdge g a b → Reaches g b c → Reaches g a c

/-- The graph contains a dependency cycle among forms present in it (every
node on such a path is the source of an edge, hence has a form record). -/
def hasCycleProp (g : FormGraph) : Prop := ∃ a, Reaches g a a

theorem Reaches.append {g : FormGraph} {a b c : String} :
    Reaches g a b → isEdge g b c → Reaches g a c := by
  intro h he
  induction h with
  | single h1 => exact Reaches.head h1 (Reaches.single he)
  | head h1 _ ih => exact Reaches.head h1 (ih he)

theorem Reaches.first_edge {g : FormGraph} {a c : String} :
    Reaches g a c → ∃ d, isEdge g a d ∧ (d = c ∨ Reaches g d c) := by
  intro h
  cases h with
  | single h1 => exact ⟨c, h1, Or.inl rfl⟩
  | head h1 h2 => exact ⟨_, h1, Or.inr h2⟩

/-- Walking a `Chain'` of edges from any member to the last element. -/
theorem chain_mem_last_reaches {g : FormGraph} :
    ∀ {l : List String} {a b : String}, List.Chain' (isEdge g) l →
      a ∈ l → l.getLast? = some b → a = b ∨ Reaches g a b := by
  intro l
  induction l with
  | nil => intro a b _ ha _; exact absurd ha (List.not_mem_nil a)
  | cons x rest ih =>
    intro a b hc ha hl
    cases rest with
    | nil =>
      simp only [List.getLast?_singleton, Option.some_inj] at hl
      rcases List.mem_singleton.mp ha with rfl
      exact Or.inl hl
    | cons y rest' =>
      rw [List.chain'_cons] at hc
      rw [List.getLast?_cons_cons] at hl
      rcases List.mem_cons.mp ha with rfl | ha'
      · rcases ih hc.2 (List.mem_cons_self y rest') hl with rfl | hr
        · exact Or.inr (Reaches.single hc.1)
        · exact Or.inr (Reaches.head hc.1 hr)
      · exact ih hc.2 ha' hl

/-- A back edge from the last element of a chain to any of its members
closes a cycle. -/
theorem cycle_of_chain_back_edge {g : FormGraph} {l : List String}
    {a b : String} (hc : List.Chain' (isEdge g) l)
    (hl : l.getLast? = some b) (ha : a ∈ l) (he : isEdge g b a) :
    hasCycleProp g := by
  rcases chain_mem_last_reaches hc ha hl with rfl | hr
  · exact ⟨a, Reaches.single he⟩
  · exact ⟨a, hr.append he⟩

/-! ## The DFS visited set only grows -/

theorem depsLoop_mono
    (next : String → List String → Option (Bool × List String))
    (hnext : ∀ d v r, next d v = some r → v ⊆ r.2) :
    ∀ (deps stack v : List String) (r : Bool × List String),
      depsLoop next deps stack v = some r → v ⊆ r.2 := by
  intro deps
  induction deps with
  | nil =>
    intro stack v r h
    simp only [depsLoop] at h
    cases h
    exact fun _ h => h
  | cons dep rest ih =>
    intro stack v r h
    simp only [depsLoop] at h
    by_cases hv : dep ∈ v
    · rw [if_pos hv] at h
      by_cases hs : dep ∈ stack
      · rw [if_pos hs] at h
        cases h
        exact fun _ h => h
      · rw [if_neg hs] at h
        exact ih stack v r h
    · rw [if_neg hv] at h
      cases hn : next dep v with
      | none => rw [hn] at h; cases h
      | some r₂ =>
        rw [hn] at h
        obtain ⟨b₂, v₂⟩ := r₂
        cases b₂ with
        | true =>
          simp only at h
          cases h
          exact hnext dep v _ hn
        | false =>
          simp only at h
          exact (hnext dep v _ hn).trans (ih stack v₂ r h)

theorem hasCycleAux_mono (g : FormGraph) :
    ∀ (fuel : Nat) (f : String) (stack v : List String)
      (r : Bool × List String),
      hasCycleAux g fuel f stack v = some r → v ⊆ r.2 ∧ f ∈ r.2 := by
  intro fuel
  induction fuel with
  | zero => intro f stack v r h; simp [hasCycleAux] at h
  | succ fuel ih =>
    intro f stack v r h
    simp only [hasCycleAux] at h
    cases hfind : g.findForm f with
    | none =>
      rw [hfind] at h
      cases h
      exact ⟨subset_insertUniq v f, self_mem_insertUniq v f⟩
    | some form =>
      rw [hfind] at h
      have hmono := depsLoop_mono _ (fun d v r h => (ih d _ v r h).1)
        form.dependencies (insertUniq stack f) (insertUniq v f) r h
      exact ⟨(subset_insertUniq v f).trans hmono,
        hmono (self_mem_insertUniq v f)⟩

/-! ## DFS soundness: a reported cycle is a real cycle -/

theorem insertUniq_eq_append {l : List String} {x : String} (h : x ∉ l) :
    insertUniq l x = l ++ [x] := by
  unfold insertUniq
  rw [if_neg h]

/-- If the dependency loop reports a cycle, then either some dependency of
the current node is on the recursion stack, or a recursive call reported
one (with a visited set that still contains the stack). -/
theorem depsLoop_sound (g : FormGraph)
    (next : String → List String → Option (Bool × List String))
    (stk : List String) (fId : String)
    (hmono : ∀ d v r, next d v = some r → v ⊆ r.2)
    (hnext : ∀ d v v₂, d ∉ stk → stk ⊆ v → next d v = some (true, v₂) →
      isEdge g fId d → hasCycleProp g)
    (hchain : List.Chain' (isEdge g) stk)
    (hlast : stk.getLast? = some fId) :
    ∀ (deps v v₂ : List String),
      (∀ d ∈ deps, isEdge g fId d) → stk ⊆ v →
      depsLoop next deps stk v = some (true, v₂) → hasCycleProp g := by
  intro deps
  induction deps with
  | nil =>
    intro v v₂ _ _ h
    simp only [depsLoop] at h
    cases h
  | cons dep rest ih =>
    intro v v₂ hdeps hsv h
    have hedge : isEdge g fId dep := hdeps dep (List.mem_cons_self dep rest)
    simp only [depsLoop] at h
    by_cases hv : dep ∈ v
    · rw [if_pos hv] at h
      by_cases hs : dep ∈ stk
      · exact cycle_of_chain_back_edge hchain hlast hs hedge
      · rw [if_neg hs] at h
        exact ih v v₂ (fun d hd => hdeps d (List.mem_cons_of_mem dep hd))
          hsv h
    · rw [if_neg hv] at h
      cases hn : next dep v with
      | none => rw [hn] at h; cases h
      | some r₂ =>
        rw [hn] at h
        obtain ⟨b₂, v₁⟩ := r₂
        cases b₂ with
        | true =>
          exact hnext dep v v₁ (fun hd => hv (hsv hd)) hsv hn hedge
        | false =>
          simp only at h
          exact ih v₁ v₂ (fun d hd => hdeps d (List.mem_cons_of_mem dep hd))
            (hsv.trans (hmono dep v _ hn)) h

/-- Soundness of the recursive `hasCycle` helper: when the recursion stack
is a real edge path ending in the current node, a `true` result exhibits a
dependency cycle. -/
theorem hasCycleAux_sound (g : FormGraph) :
    ∀ (fuel : Nat) (f : String) (stack v v₂ : List String),
      List.Chain' (isEdge g) (stack ++ [f]) →
      f ∉ stack →
      stack ⊆ v →
      hasCycleAux g fuel f stack v = some (true, v₂) →
      hasCycleProp g := by
  intro fuel
  induction fuel with
  | zero => intro f stack v v₂ _ _ _ h; simp [hasCycleAux] at h
  | succ fuel ih =>
    intro f stack v v₂ hchain hfs hsv h
    simp only [hasCycleAux] at h
    cases hfind : g.findForm f with
    | none => rw [hfind] at h; cases h
    | some form =>
      rw [hfind] at h
      rw [insertUniq_eq_append hfs] at h
      refine depsLoop_sound g _ (stack ++ [f]) f
        (fun d w r hw => (hasCycleAux_mono g fuel d _ w r hw).1)
        (fun d w w₂ hd hsw hw hedge => ?_)
        hchain (List.getLast?_concat _)
        form.dependencies (insertUniq v f) v₂
        (fun d hd => ⟨form, hfind, hd⟩) ?_ h
      · refine ih d (stack ++ [f]) w w₂ ?_ hd hsw hw
        rw [List.chain'_append]
        refine ⟨hchain, List.chain'_singleton d, ?_⟩
        intro x hx y hy
        rw [List.getLast?_concat] at hx
        cases hx
        cases hy
        exact hedge
      · intro y hy
        rcases List.mem_append.mp hy with hy' | hy'
        · exact subset_insertUniq v f (hsv hy')
        · have hyf : y = f := List.mem_singleton.mp hy'
          rw [hyf]
          exact self_mem_insertUniq v f

/-! ## DFS completeness: a cycle is always reported -/

/-- Completeness invariant of the DFS: every visited node that is off the
recursion stack has had its whole DFS subtree explored, so everything it
reaches is also visited and off the stack, and it lies on no cycle. -/
def dfsClosed (g : FormGraph) (visited stack : List String) : Prop :=
  ∀ a, a ∈ visited → a ∉ stack →
    (∀ b, Reaches g a b → b ∈ visited ∧ b ∉ stack) ∧ ¬Reaches g a a

/-- Pushing an unvisited node onto both sets preserves the invariant. -/
theorem dfsClosed_push {g : FormGraph} {v s : List String} {f : String}
    (hg : dfsClosed g v s) (hfv : f ∉ v) :
    dfsClosed g (v ++ [f]) (s ++ [f]) := by
  intro a hav has
  have hav' : a ∈ v := by
    rcases List.mem_append.mp hav with h | h
    · exact h
    · rcases List.mem_singleton.mp h with rfl
      exact absurd (List.mem_append_right s (List.mem_singleton_self a)) has
  have has' : a ∉ s := fun h => has (List.mem_append_left _ h)
  obtain ⟨hclosed, hnc⟩ := hg a hav' has'
  refine ⟨fun b hb => ?_, hnc⟩
  obtain ⟨hbv, hbs⟩ := hclosed b hb
  refine ⟨List.mem_append_left _ hbv, fun hbs' => ?_⟩
  rcases List.mem_append.mp hbs' with h | h
  · exact hbs h
  · rcases List.mem_singleton.mp h with rfl
    exact hfv hbv

/-- The dependency loop preserves the invariant on a `false` result, grows
the visited set, and ends with every processed dependency visited and off
the stack. -/
theorem depsLoop_complete (g : FormGraph)
    (next : String → List String → Option (Bool × List String))
    (stk : List String)
    (hnext : ∀ d w w₂, d ∉ w → stk ⊆ w → dfsClosed g w stk →
      next d w = some (false, w₂) →
      dfsClosed g w₂ stk ∧ w ⊆ w₂ ∧ d ∈ w₂ ∧ stk ⊆ w₂) :
    ∀ (deps v v₂ : List String), stk ⊆ v → dfsClosed g v stk →
      depsLoop next deps stk v = some (false, v₂) →
      dfsClosed g v₂ stk ∧ v ⊆ v₂ ∧ stk ⊆ v₂ ∧
        ∀ d ∈ deps, d ∈ v₂ ∧ d ∉ stk := by
  intro deps
  induction deps with
  | nil =>
    intro v v₂ hsv hg h
    simp only [depsLoop, Option.some_inj, Prod.mk.injEq] at h
    rw [← h.2]
    exact ⟨hg, fun _ h => h, hsv, fun d hd => absurd hd (List.not_mem_nil d)⟩
  | cons dep rest ih =>
    intro v v₂ hsv hg h
    simp only [depsLoop] at h
    by_cases hv : dep ∈ v
    · rw [if_pos hv] at h
      by_cases hs : dep ∈ stk
      · rw [if_pos hs] at h
        simp at h
      · rw [if_neg hs] at h
        obtain ⟨hg₂, hvv₂, hsv₂, hrest⟩ := ih v v₂ hsv hg h
        refine ⟨hg₂, hvv₂, hsv₂, fun d hd => ?_⟩
        rcases List.mem_cons.mp hd with rfl | hd'
        · exact ⟨hvv₂ hv, hs⟩
        · exact hrest d hd'
    · rw [if_neg hv] at h
      cases hn : next dep v with
      | none => rw [hn] at h; cases h
      | some r₂ =>
        rw [hn] at h
        obtain ⟨b₂, v₁⟩ := r₂
        cases b₂ with
        | true => simp at h
        | false =>
          simp only at h
          obtain ⟨hg₁, hvv₁, hdv₁, hsv₁⟩ := hnext dep v v₁ hv hsv hg hn
          obtain ⟨hg₂, hv₁v₂, hsv₂, hrest⟩ := ih v₁ v₂ hsv₁ hg₁ h
          refine ⟨hg₂, hvv₁.trans hv₁v₂, hsv₂, fun d hd => ?_⟩
          rcases List.mem_cons.mp hd with rfl | hd'
          · exact ⟨hv₁v₂ hdv₁, fun hds => hv (hsv hds)⟩
          · exact hrest d hd'

/-- Completeness of the recursive `hasCycle` helper: a `false` result means
the whole subtree below the current node was explored without finding a
back edge, and the invariant survives popping the node off the stack. -/
theorem hasCycleAux_complete (g : FormGraph) :
    ∀ (fuel : Nat) (f : String) (stack v v₂ : List String),
      f ∉ v → stack ⊆ v → dfsClosed g v stack →
      hasCycleAux g fuel f stack v = some (false, v₂) →
      dfsClosed g v₂ stack ∧ v ⊆ v₂ ∧ f ∈ v₂ ∧ stack ⊆ v₂ := by
  intro fuel
  induction fuel with
  | zero => intro f stack v v₂ _ _ _ h; simp [hasCycleAux] at h
  | succ fuel ih =>
    intro f stack v v₂ hfv hsv hg h
    have hfs : f ∉ stack := fun hf => hfv (hsv hf)
    simp only [hasCycleAux] at h
    cases hfind : g.findForm f with
    | none =>
      rw [hfind] at h
      simp only [Option.some_inj, Prod.mk.injEq] at h
      rw [← h.2, insertUniq_eq_append hfv]
      have hnoedge : ∀ b, ¬Reaches g f b := by
        intro b hb
        obtain ⟨d, ⟨f', hf', _⟩, _⟩ := hb.first_edge
        rw [hfind] at hf'
        cases hf'
      refine ⟨?_, List.subset_append_left v [f],
        List.mem_append_right v (List.mem_singleton_self f),
        fun x hx => List.mem_append_left _ (hsv hx)⟩
      intro a hav has
      rcases List.mem_append.mp hav with hav' | hav'
      · obtain ⟨hcl, hnc⟩ := hg a hav' has
        exact ⟨fun b hb => ⟨List.mem_append_left _ (hcl b hb).1,
          (hcl b hb).2⟩, hnc⟩
      · rcases List.mem_singleton.mp hav' with rfl
        exact ⟨fun b hb => absurd hb (hnoedge b), hnoedge a⟩
    | some form =>
      rw [hfind] at h
      rw [insertUniq_eq_append hfs, insertUniq_eq_append hfv] at h
      have hpush : dfsClosed g (v ++ [f]) (stack ++ [f]) := dfsClosed_push hg hfv
      have hssv : stack ++ [f] ⊆ v ++ [f] :=
        List.append_subset.mpr ⟨fun x hx => List.mem_append_left _ (hsv hx),
          List.subset_append_right v [f]⟩
      obtain ⟨hg₂, hv'v₂, hs'v₂, hdeps⟩ := depsLoop_complete g _ (stack ++ [f])
        (fun d w w₂ hd hsw hgw hw => ih d (stack ++ [f]) w w₂ hd hsw hgw hw)
        form.dependencies (v ++ [f]) v₂ hssv hpush h
      have hfv₂ : f ∈ v₂ :=
        hv'v₂ (List.mem_append_right v (List.mem_singleton_self f))
      have hfstk' : f ∈ stack ++ [f] :=
        List.mem_append_right stack (List.mem_singleton_self f)
      have hdep_props : ∀ d, isEdge g f d → d ∈ v₂ ∧ d ∉ stack ++ [f] := by
        rintro d ⟨f', hf', hd⟩
        rw [hfind] at hf'
        cases hf'
        exact hdeps d hd
      have hgood : dfsClosed g v₂ stack := by
        intro a hav₂ has
        by_cases haf : a = f
        · subst haf
          have hreach : ∀ b, Reaches g a b → b ∈ v₂ ∧ b ∉ stack ++ [a] := by
            intro b hb
            obtain ⟨d, hed, hrest⟩ := hb.first_edge
            obtain ⟨hdv₂, hdstk'⟩ := hdep_props d hed
            rcases hrest with rfl | hdb
            · exact ⟨hdv₂, hdstk'⟩
            · exact (hg₂ d hdv₂ hdstk').1 b hdb
          refine ⟨fun b hb => ⟨(hreach b hb).1,
            fun hbs => (hreach b hb).2 (List.mem_append_left _ hbs)⟩, ?_⟩
          intro haa
          exact (hreach a haa).2 hfstk'
        · have hastk' : a ∉ stack ++ [f] := by
            intro hx
            rcases List.mem_append.mp hx with hx' | hx'
            · exact has hx'
            · exact haf (List.mem_singleton.mp hx')
          obtain ⟨hcl, hnc⟩ := hg₂ a hav₂ hastk'
          exact ⟨fun b hb => ⟨(hcl b hb).1,
            fun hbs => (hcl b hb).2 (List.mem_append_left _ hbs)⟩, hnc⟩
      exact ⟨hgood, (List.subset_append_left v [f]).trans hv'v₂, hfv₂,
        fun x hx => hs'v₂ (List.mem_append_left _ hx)⟩

/-! ## DFS fuel sufficiency -/

theorem findForm_entry_mem {g : FormGraph} :
    ∀ {a : String} {f : Form}, g.findForm a = some f → (a, f) ∈ g := by
  induction g with
  | nil => intro a f h; simp [FormGraph.findForm] at h
  | cons p rest ih =>
    intro a f h
    rw [FormGraph.findForm] at h
    by_cases hk : p.1 = a
    · rw [if_pos hk] at h
      cases h
      rw [← hk]
      exact List.mem_cons_self p rest
    · rw [if_neg hk] at h
      exact List.mem_cons_of_mem p (ih h)

theorem findForm_mem_keys {g : FormGraph} {a : String} {f : Form}
    (h : g.findForm a = some f) : a ∈ FormGraph.keys g := by
  have := findForm_entry_mem h
  exact List.mem_map.mpr ⟨(a, f), this, rfl⟩

theorem edge_target_mem_univIds {g : FormGraph} {a d : String}
    (h : isEdge g a d) : d ∈ univIds g := by
  obtain ⟨f, hf, hd⟩ := h
  refine List.mem_append_right _ (List.mem_flatten.mpr ?_)
  exact ⟨f.dependencies, List.mem_map.mpr ⟨(a, f), findForm_entry_mem hf, rfl⟩,
    hd⟩

/-- Cardinality of the not-yet-visited part of the id universe. -/
def unvisitedCard (g : FormGraph) (v : List String) : Nat :=
  ((univIds g).toFinset \ v.toFinset).card

theorem unvisitedCard_mono {g : FormGraph} {v w : List String}
    (h : v ⊆ w) : unvisitedCard g w ≤ unvisitedCard g v := by
  apply Finset.card_le_card
  apply Finset.sdiff_subset_sdiff (le_refl _)
  intro x hx
  exact List.mem_toFinset.mpr (h (List.mem_toFinset.mp hx))

theorem unvisitedCard_push {g : FormGraph} {v : List String} {f : String}
    (hf : f ∈ univIds g) (hfv : f ∉ v) :
    unvisitedCard g (v ++ [f]) = unvisitedCard g v - 1 := by
  unfold unvisitedCard
  have h1 : (v ++ [f]).toFinset = insert f v.toFinset := by
    rw [List.toFinset_append]
    simp only [List.toFinset_cons, List.toFinset_nil, insert_emptyc_eq]
    rw [Finset.union_comm, ← Finset.insert_eq]
  rw [h1, Finset.sdiff_insert]
  rw [Finset.card_erase_of_mem]
  rw [Finset.mem_sdiff]
  exact ⟨List.mem_toFinset.mpr hf, fun hx => hfv (List.mem_toFinset.mp hx)⟩

theorem unvisitedCard_pos {g : FormGraph} {v : List String} {f : String}
    (hf : f ∈ univIds g) (hfv : f ∉ v) : 1 ≤ unvisitedCard g v := by
  apply Finset.card_pos.mpr
  exact ⟨f, Finset.mem_sdiff.mpr ⟨List.mem_toFinset.mpr hf,
    fun hx => hfv (List.mem_toFinset.mp hx)⟩⟩

/-- The dependency loop produces a result when every recursive call on a
listed dependency does. -/
theorem depsLoop_isSome
    (next : String → List String → Option (Bool × List String))
    (stk v' : List String)
    (hmono : ∀ d w r, next d w = some r → w ⊆ r.2) :
    ∀ (deps w : List String),
      (∀ d ∈ deps, ∀ u, d ∉ u → v' ⊆ u → (next d u).isSome) →
      v' ⊆ w → (depsLoop next deps stk w).isSome := by
  intro deps
  induction deps with
  | nil => intro w _ _; simp [depsLoop]
  | cons dep rest ih =>
    intro w hnext hw
    simp only [depsLoop]
    by_cases hv : dep ∈ w
    · rw [if_pos hv]
      by_cases hs : dep ∈ stk
      · rw [if_pos hs]; simp
      · rw [if_neg hs]
        exact ih w (fun d hd => hnext d (List.mem_cons_of_mem dep hd)) hw
    · rw [if_neg hv]
      cases hn : next dep w with
      | none =>
        have := hnext dep (List.mem_cons_self dep rest) w hv hw
        rw [hn] at this
        cases this
      | some r =>
        obtain ⟨b, w₂⟩ := r
        cases b with
        | true => simp
        | false =>
          simp only
          exact ih w₂ (fun d hd => hnext d (List.mem_cons_of_mem dep hd))
            (hw.trans (hmono dep w _ hn))

/-- The DFS helper never runs out of fuel when the fuel dominates the
number of unvisited ids. -/
theorem hasCycleAux_isSome (g : FormGraph) :
    ∀ (fuel : Nat) (f : String) (stack v : List String),
      f ∈ univIds g → f ∉ v → unvisitedCard g v ≤ fuel →
      (hasCycleAux g fuel f stack v).isSome := by
  intro fuel
  induction fuel with
  | zero =>
    intro f stack v hf hfv hcard
    have := unvisitedCard_pos hf hfv
    omega
  | succ fuel ih =>
    intro f stack v hf hfv hcard
    simp only [hasCycleAux]
    cases hfind : g.findForm f with
    | none => simp
    | some form =>
      simp only
      rw [insertUniq_eq_append hfv]
      have hcard' : unvisitedCard g (v ++ [f]) ≤ fuel := by
        rw [unvisitedCard_push hf hfv]
        have := unvisitedCard_pos hf hfv
        omega
      apply depsLoop_isSome _ _ (v ++ [f])
        (fun d w r h => (hasCycleAux_mono g fuel d _ w r h).1)
      · intro d hd u hu hwu
        exact ih d (insertUniq stack f) u
          (edge_target_mem_univIds ⟨form, hfind, hd⟩) hu
          ((unvisitedCard_mono hwu).trans hcard')
      · exact fun x hx => hx

/-- The outer loop never runs out of fuel at `cycleFuel`. -/
theorem hasCircularDependenciesAux_isSome (g : FormGraph) :
    ∀ (keys v : List String), (∀ k ∈ keys, k ∈ univIds g) →
      (hasCircularDependenciesAux g (cycleFuel g) keys v).isSome := by
  intro keys
  induction keys with
  | nil => intro v _; simp [hasCircularDependenciesAux]
  | cons k rest ih =>
    intro v hkeys
    simp only [hasCircularDependenciesAux]
    by_cases hv : k ∈ v
    · rw [if_pos hv]
      exact ih v (fun x hx => hkeys x (List.mem_cons_of_mem k hx))
    · rw [if_neg hv]
      have hks : (hasCycleAux g (cycleFuel g) k [] v).isSome := by
        apply hasCycleAux_isSome g _ _ _ _ (hkeys k (List.mem_cons_self k rest)) hv
        calc unvisitedCard g v ≤ (univIds g).toFinset.card :=
              Finset.card_le_card (Finset.sdiff_subset)
          _ ≤ (univIds g).length := List.toFinset_card_le _
          _ ≤ cycleFuel g := Nat.le_succ _
      cases hc : hasCycleAux g (cycleFuel g) k [] v with
      | none => rw [hc] at hks; cases hks
      | some r =>
        obtain ⟨b, v'⟩ := r
        cases b with
        | true => simp
        | false =>
          simp only
          exact ih v' (fun x hx => hkeys x (List.mem_cons_of_mem k hx))

/-! ## Top-level loop of `hasCircularDependencies` -/

theorem hasCircularDependenciesAux_sound (g : FormGraph) (fuel : Nat) :
    ∀ (keys visited : List String),
      hasCircularDependenciesAux g fuel keys visited = some true →
      hasCycleProp g := by
  intro keys
  induction keys with
  | nil => intro visited h; simp [hasCircularDependenciesAux] at h
  | cons k rest ih =>
    intro visited h
    simp only [hasCircularDependenciesAux] at h
    by_cases hv : k ∈ visited
    · rw [if_pos hv] at h
      exact ih visited h
    · rw [if_neg hv] at h
      cases hc : hasCycleAux g fuel k [] visited with
      | none => rw [hc] at h; cases h
      | some r =>
        rw [hc] at h
        obtain ⟨b, v'⟩ := r
        cases b with
        | true =>
          refine hasCycleAux_sound g fuel k [] visited v' ?_
            (List.not_mem_nil k) (List.nil_subset visited) hc
          rw [List.nil_append]
          exact List.chain'_singleton k
        | false => exact ih v' h

theorem hasCircularDependenciesAux_complete (g : FormGraph) (fuel : Nat) :
    ∀ (keys visited : List String), dfsClosed g visited [] →
      hasCircularDependenciesAux g fuel keys visited = some false →
      ∀ x, x ∈ keys ∨ x ∈ visited → ¬Reaches g x x := by
  intro keys
  induction keys with
  | nil =>
    intro visited hg h x hx
    rcases hx with hx | hx
    · exact absurd hx (List.not_mem_nil x)
    · exact (hg x hx (List.not_mem_nil x)).2
  | cons k rest ih =>
    intro visited hg h x hx
    simp only [hasCircularDependenciesAux] at h
    by_cases hv : k ∈ visited
    · rw [if_pos hv] at h
      refine ih visited hg h x ?_
      rcases hx with hx | hx
      · rcases List.mem_cons.mp hx with rfl | hx'
        · exact Or.inr hv
        · exact Or.inl hx'
      · exact Or.inr hx
    · rw [if_neg hv] at h
      cases hc : hasCycleAux g fuel k [] visited with
      | none => rw [hc] at h; cases h
      | some r =>
        rw [hc] at h
        obtain ⟨b, v'⟩ := r
        cases b with
        | true => cases h
        | false =>
          obtain ⟨hg', hvv', hkv', _⟩ := hasCycleAux_complete g fuel k []
            visited v' hv (List.nil_subset visited) hg hc
          refine ih v' hg' h x ?_
          rcases hx with hx | hx
          · rcases List.mem_cons.mp hx with rfl | hx'
            · exact Or.inr hkv'
            · exact Or.inl hx'
          · exact Or.inr (hvv' hx)

/-! ## Claim C4: cycle detection is exact -/

/-- C4: `hasCircularDependencies` returns `true` exactly when the graph
contains a dependency cycle among forms present in it (a dependency
identifier without a form record can start no edge, so it contributes no
cycle), and the empty graph yields `false`. -/
theorem hasCircularDependencies_iff_cycle (g : FormGraph) :
    (hasCircularDependencies g = true ↔ hasCycleProp g) ∧
      hasCircularDependencies [] = false := by
  refine ⟨⟨fun h => ?_, fun h => ?_⟩, rfl⟩
  · unfold hasCircularDependencies at h
    cases hc : hasCircularDependenciesAux g (cycleFuel g) (FormGraph.keys g)
        [] with
    | none => rw [hc] at h; cases h
    | some b =>
      rw [hc] at h
      cases b with
      | false => cases h
      | true => exact hasCircularDependenciesAux_sound g (cycleFuel g) _ _ hc
  · have hsome := hasCircularDependenciesAux_isSome g (FormGraph.keys g) []
      (fun k hk => List.mem_append_left _ hk)
    cases hc : hasCircularDependenciesAux g (cycleFuel g) (FormGraph.keys g)
        [] with
    | none => rw [hc] at hsome; cases hsome
    | some b =>
      cases b with
      | true =>
        unfold hasCircularDependencies
        rw [hc]
        rfl
      | false =>
        exfalso
        have hgood : dfsClosed g [] [] := by
          intro a ha
          exact absurd ha (List.not_mem_nil a)
        have hnone := hasCircularDependenciesAux_complete g (cycleFuel g)
          (FormGraph.keys g) [] hgood hc
        obtain ⟨a, ha⟩ := h
        obtain ⟨d, ⟨f, hf, _⟩, _⟩ := ha.first_edge
        exact hnone a (Or.inl (findForm_mem_keys hf)) ha

/-! ## Claim C5: both traversals terminate within an explicit fuel bound -/

/-- C5: on every finite graph — cyclic or self-referential graphs included —
the BFS of `getDependencies` and the DFS of `hasCircularDependencies`
complete within an explicit fuel bound linear in the size of the graph
(`depFuel`, respectively `cycleFuel`): the visited-set deduplication makes
every traversal step consume either a queued id or a never-visited id, so
the modelled loops never exhaust that fuel. -/
theorem traversals_terminate (g : FormGraph) (t : String) :
    (getDependenciesAux g (depFuel g) [t] [] []).isSome ∧
      (hasCircularDependenciesAux g (cycleFuel g) (FormGraph.keys g)
        []).isSome := by
  constructor
  · exact getDependencies_fuel_sufficient g t
  · exact hasCircularDependenciesAux_isSome g (FormGraph.keys g) []
      (fun k hk => List.mem_append_left _ hk)

/-! ## `dataSourceRegistry.ts` -/

/-- JS `str.split(sep)` for a one-character separator, over the character
list: split at every occurrence, keeping empty pieces (`"" → [""]`). -/
def splitChars (sep : Char) : List Char → List (List Char)
  | [] => [[]]
  | c :: cs =>
    match splitChars sep cs with
    | [] => [[]]
    | w :: ws => if c = sep then [] :: w :: ws else (c :: w) :: ws

/-- JS `word.charAt(0).toUpperCase() + word.slice(1)`; `charAt(0)` of the
empty string is the empty string (ASCII upper-casing). -/
def upperFirst (w : String) : String :=
  match w.data with
  | [] => ""
  | c :: cs => String.mk (Char.toUpper c :: cs)

/-- JS `arr.join(sep)`. -/
def joinWith (sep : String) : List String → String
  | [] => ""
  | [w] => w
  | w :: ws => w ++ sep ++ joinWith sep ws

/-- `formatPropertyName` from `dataSourceRegistry.ts`:
`prop.split('_').map(word => word.charAt(0).toUpperCase() +
word.slice(1)).join(' ')`. -/
def formatPropertyName (prop : String) : String :=
  joinWith " " (((splitChars '_' prop.data).map String.mk).map upperFirst)

/-- The three `DataSource` implementations of `dataSourceRegistry.ts`:
`FormDataSource(id, name, form)`, `GlobalDataSource(globalData)` and
`OrganizationDataSource(globalData)`. -/
inductive DataSource where
  | FormDataSource (id name : String) (form : Form)
  | GlobalDataSource (globalData : GlobalData)
  | OrganizationDataSource (globalData : GlobalData)
deriving DecidableEq, Repr

/-- The `id` member of each implementation (the global ones are fixed). -/
def DataSource.id : DataSource → String
  | .FormDataSource i _ _ => i
  | .GlobalDataSource _ => "global-action-properties"
  | .OrganizationDataSource _ => "global-org-properties"

/-- The `name` member of each implementation. -/
def DataSource.name : DataSource → String
  | .FormDataSource _ n _ => n
  | .GlobalDataSource _ => "Action Properties"
  | .OrganizationDataSource _ => "Organization Properties"

/-- The `type` member of each implementation. -/
def DataSource.type : DataSource → DataSourceType
  | .FormDataSource _ _ _ => .form
  | .GlobalDataSource _ => .global
  | .OrganizationDataSource _ => .global

/-- `getFields()` of each implementation. -/
def DataSource.getFields : DataSource → List DataField
  | .FormDataSource _ n form =>
    form.fields.map (fun field =>
      { id := field.id, label := field.label, type := field.type,
        path := n ++ "." ++ field.label })
  | .GlobalDataSource gd =>
    gd.actionProperties.map (fun prop =>
      { id := prop, label := formatPropertyName prop, type := FieldType.text,
        path := "Action." ++ formatPropertyName prop })
  | .OrganizationDataSource gd =>
    gd.clientOrgProperties.map (fun prop =>
      { id := prop, label := formatPropertyName prop, type := FieldType.text,
        path := "clientOrg." ++ formatPropertyName prop })

/-- `DataSourceRegistry`: a JS `Map` keyed by source id, modelled as an
insertion-ordered association list. -/
abbrev DataSourceRegistry := List (String × DataSource)

/-- `register(source)`: JS `Map.set(source.id, source)` — overwrite in
place (keeping the original position) or append. -/
def DataSourceRegistry.register (r : DataSourceRegistry) (s : DataSource) :
    DataSourceRegistry :=
  if (r.map Prod.fst).contains (DataSource.id s) then
    r.map (fun p =>
      if p.1 = DataSource.id s then (DataSource.id s, s) else p)
  else r ++ [(DataSource.id s, s)]

/-- `get(id)`: JS `Map.get`, `none` for not-found. -/
def DataSourceRegistry.get (r : DataSourceRegistry) (id : String) :
    Option DataSource :=
  match r with
  | [] => none
  | (k, s) :: rest =>
    if k = id then some s else DataSourceRegistry.get rest id

/-- `getAll()`: the stored sources in insertion order. -/
def DataSourceRegistry.getAll (r : DataSourceRegistry) : List DataSource :=
  r.map Prod.snd

/-- `getByType(type)`. -/
def DataSourceRegistry.getByType (r : DataSourceRegistry)
    (t : DataSourceType) : List DataSource :=
  (DataSourceRegistry.getAll r).filter (fun s => decide (DataSource.type s = t))

/-- `CategorizedDataSources` from `types.ts`. -/
structure CategorizedDataSources where
  directDependencies : List DataSource
  transitiveDependencies : List DataSource
  globalSources : List DataSource
deriving DecidableEq, Repr

/-- The registry built by `useDataSources` (lines 50–59): one form-backed
source per form in `Object.values(formGraph)` (keyed by the form's own
`id`), then — when a snapshot is supplied — the two global sources. -/
def buildRegistry (formGraph : FormGraph) (globalData : Option GlobalData) :
    DataSourceRegistry :=
  let regForms := (FormGraph.values formGraph).foldl
    (fun r form => DataSourceRegistry.register r
      (DataSource.FormDataSource form.id form.name form)) []
  match globalData with
  | none => regForms
  | some gd =>
    DataSourceRegistry.register
      (DataSourceRegistry.register regForms (DataSource.GlobalDataSource gd))
      (DataSource.OrganizationDataSource gd)

/-- `useDataSources` from `useDataSources.ts` (the `useMemo` body).  The
JS guard `if (!targetFormId)` holds for `null` and for the empty string,
so both model the "nothing selected" state. -/
def useDataSources (targetFormId : Option String) (formGraph : FormGraph)
    (globalData : Option GlobalData) : CategorizedDataSources :=
  match targetFormId with
  | none =>
    { directDependencies := [], transitiveDependencies := [],
      globalSources := [] }
  | some t =>
    if t = "" then
      { directDependencies := [], transitiveDependencies := [],
        globalSources := [] }
    else
      let registry := buildRegistry formGraph globalData
      let directDeps := getDirectDependencies t formGraph
      let transitiveDeps := getTransitiveDependencies t formGraph
      { directDependencies :=
          directDeps.filterMap (DataSourceRegistry.get registry),
        transitiveDependencies :=
          transitiveDeps.filterMap (DataSourceRegistry.get registry),
        globalSources :=
          DataSourceRegistry.getByType registry DataSourceType.global }

/-! ## Registry facts -/

theorem contains_iff_mem {l : List String} {x : String} :
    l.contains x = true ↔ x ∈ l := by
  unfold List.contains
  exact List.elem_iff

/-- Every entry of a registry built through `register` is keyed by its
source's own id. -/
def RegWF (r : DataSourceRegistry) : Prop :=
  ∀ p ∈ r, DataSource.id p.2 = p.1

theorem register_mem {r : DataSourceRegistry} {s : DataSource}
    {p : String × DataSource}
    (hp : p ∈ DataSourceRegistry.register r s) :
    p ∈ r ∨ p = (DataSource.id s, s) := by
  unfold DataSourceRegistry.register at hp
  by_cases hc : ((r.map Prod.fst).contains (DataSource.id s)) = true
  · rw [if_pos hc] at hp
    obtain ⟨q, hq, hpq⟩ := List.mem_map.mp hp
    by_cases hqs : q.1 = DataSource.id s
    · rw [if_pos hqs] at hpq
      exact Or.inr hpq.symm
    · rw [if_neg hqs] at hpq
      exact Or.inl (hpq ▸ hq)
  · rw [if_neg hc] at hp
    rcases List.mem_append.mp hp with h | h
    · exact Or.inl h
    · exact Or.inr (List.mem_singleton.mp h)

theorem RegWF_register {r : DataSourceRegistry} {s : DataSource}
    (h : RegWF r) : RegWF (DataSourceRegistry.register r s) := by
  intro p hp
  rcases register_mem hp with hp' | hp'
  · exact h p hp'
  · rw [hp']

theorem RegWF_foldl_forms :
    ∀ (forms : List Form) (r₀ : DataSourceRegistry), RegWF r₀ →
      RegWF (forms.foldl (fun r form => DataSourceRegistry.register r
        (DataSource.FormDataSource form.id form.name form)) r₀) := by
  intro forms
  induction forms with
  | nil => intro r₀ h; exact h
  | cons f fs ih =>
    intro r₀ h
    exact ih _ (RegWF_register h)

theorem RegWF_buildRegistry (g : FormGraph) (gd : Option GlobalData) :
    RegWF (buildRegistry g gd) := by
  have hforms := RegWF_foldl_forms (FormGraph.values g) []
    (fun p hp => absurd hp (List.not_mem_nil p))
  unfold buildRegistry
  cases gd with
  | none => exact hforms
  | some gd => exact RegWF_register (RegWF_register hforms)

theorem get_mem :
    ∀ {r : DataSourceRegistry} {k : String} {s : DataSource},
      DataSourceRegistry.get r k = some s → (k, s) ∈ r := by
  intro r
  induction r with
  | nil => intro k s h; simp [DataSourceRegistry.get] at h
  | cons q rest ih =>
    intro k s h
    obtain ⟨k₁, s₁⟩ := q
    simp only [DataSourceRegistry.get] at h
    by_cases hk : k₁ = k
    · rw [if_pos hk] at h
      cases h
      rw [← hk]
      exact List.mem_cons_self _ _
    · rw [if_neg hk] at h
      exact List.mem_cons_of_mem _ (ih h)

theorem get_id {r : DataSourceRegistry} {k : String} {s : DataSource}
    (hwf : RegWF r) (h : DataSourceRegistry.get r k = some s) :
    DataSource.id s = k :=
  hwf (k, s) (get_mem h)

theorem get_none_of_keys :
    ∀ {r : DataSourceRegistry} {k : String}, (∀ p ∈ r, p.1 ≠ k) →
      DataSourceRegistry.get r k = none := by
  intro r
  induction r with
  | nil => intro k _; rfl
  | cons q rest ih =>
    intro k h
    obtain ⟨k₁, s₁⟩ := q
    simp only [DataSourceRegistry.get]
    rw [if_neg (h (k₁, s₁) (List.mem_cons_self _ _))]
    exact ih (fun p hp => h p (List.mem_cons_of_mem _ hp))

theorem foldl_register_key :
    ∀ {forms : List Form} {r₀ : DataSourceRegistry}
      {p : String × DataSource},
      p ∈ forms.foldl (fun r form => DataSourceRegistry.register r
        (DataSource.FormDataSource form.id form.name form)) r₀ →
      p ∈ r₀ ∨ ∃ f ∈ forms, p.1 = f.id := by
  intro forms
  induction forms with
  | nil => intro r₀ p hp; exact Or.inl hp
  | cons f fs ih =>
    intro r₀ p hp
    rcases ih hp with hp' | ⟨f', hf', hpf⟩
    · rcases register_mem hp' with hp'' | hp''
      · exact Or.inl hp''
      · refine Or.inr ⟨f, List.mem_cons_self f fs, ?_⟩
        rw [hp'']
        rfl
    · exact Or.inr ⟨f', List.mem_cons_of_mem f hf', hpf⟩

theorem get_map_overwrite {key : String} {v : DataSource} :
    ∀ {r : DataSourceRegistry}, key ∈ r.map Prod.fst →
      DataSourceRegistry.get
        (r.map fun p => if p.1 = key then (key, v) else p) key = some v := by
  intro r
  induction r with
  | nil => intro h; simp at h
  | cons q rest ih =>
    intro hk
    obtain ⟨k₁, s₁⟩ := q
    simp only [List.map_cons]
    by_cases hq : (k₁, s₁).1 = key
    · rw [if_pos hq]
      simp [DataSourceRegistry.get]
    · rw [if_neg hq]
      simp only [DataSourceRegistry.get]
      rw [if_neg hq]
      apply ih
      rw [List.map_cons] at hk
      rcases List.mem_cons.mp hk with h | h
      · exact absurd h.symm hq
      · exact h

theorem get_map_overwrite_other {key k : String} {v : DataSource}
    (hk : k ≠ key) :
    ∀ {r : DataSourceRegistry},
      DataSourceRegistry.get
          (r.map fun p => if p.1 = key then (key, v) else p) k =
        DataSourceRegistry.get r k := by
  intro r
  induction r with
  | nil => rfl
  | cons q rest ih =>
    obtain ⟨k₁, s₁⟩ := q
    simp only [List.map_cons]
    by_cases hq : (k₁, s₁).1 = key
    · rw [if_pos hq]
      have hq' : k₁ = key := hq
      simp only [DataSourceRegistry.get]
      rw [if_neg (fun h => hk h.symm), if_neg (fun h : k₁ = k => hk (h ▸ hq'))]
      exact ih
    · rw [if_neg hq]
      simp only [DataSourceRegistry.get]
      by_cases hq2 : k₁ = k
      · rw [if_pos hq2, if_pos hq2]
      · rw [if_neg hq2, if_neg hq2]
        exact ih

theorem get_append_self :
    ∀ {r : DataSourceRegistry} {k : String} {s : DataSource},
      k ∉ r.map Prod.fst →
      DataSourceRegistry.get (r ++ [(k, s)]) k = some s := by
  intro r
  induction r with
  | nil => intro k s _; simp [DataSourceRegistry.get]
  | cons q rest ih =>
    intro k s h
    obtain ⟨k₁, s₁⟩ := q
    rw [List.cons_append]
    simp only [DataSourceRegistry.get]
    rw [List.map_cons] at h
    rw [if_neg (fun hq : k₁ = k => h (List.mem_cons.mpr (Or.inl hq.symm)))]
    exact ih (fun hq => h (List.mem_cons.mpr (Or.inr hq)))

theorem get_append_other :
    ∀ {r l : DataSourceRegistry} {k : String},
      DataSourceRegistry.get r k = none →
      DataSourceRegistry.get (r ++ l) k = DataSourceRegistry.get l k := by
  intro r
  induction r with
  | nil => intro l k _; rfl
  | cons q rest ih =>
    intro l k h
    obtain ⟨k₁, s₁⟩ := q
    simp only [DataSourceRegistry.get] at h
    rw [List.cons_append]
    simp only [DataSourceRegistry.get]
    by_cases hq : k₁ = k
    · rw [if_pos hq] at h
      cases h
    · rw [if_neg hq] at h ⊢
      exact ih h

theorem get_register_self (r : DataSourceRegistry) (s : DataSource) :
    DataSourceRegistry.get (DataSourceRegistry.register r s)
      (DataSource.id s) = some s := by
  unfold DataSourceRegistry.register
  by_cases hc : DataSource.id s ∈ r.map Prod.fst
  · rw [if_pos (contains_iff_mem.mpr hc)]
    exact get_map_overwrite hc
  · rw [if_neg (fun h => hc (contains_iff_mem.mp h))]
    exact get_append_self hc

theorem get_register_other {k : String} (r : DataSourceRegistry)
    (s : DataSource) (hk : k ≠ DataSource.id s) :
    DataSourceRegistry.get (DataSourceRegistry.register r s) k =
      DataSourceRegistry.get r k := by
  unfold DataSourceRegistry.register
  by_cases hc : ((r.map Prod.fst).contains (DataSource.id s)) = true
  · rw [if_pos hc]
    exact get_map_overwrite_other hk
  · rw [if_neg hc]
    cases hget : DataSourceRegistry.get r k with
    | none =>
      rw [get_append_other hget]
      simp only [DataSourceRegistry.get]
      rw [if_neg (fun h => hk h.symm)]
    | some s' =>
      clear hc
      induction r with
      | nil => simp [DataSourceRegistry.get] at hget
      | cons q rest ih =>
        obtain ⟨k₁, s₁⟩ := q
        rw [List.cons_append]
        simp only [DataSourceRegistry.get] at hget ⊢
        by_cases hq : k₁ = k
        · rw [if_pos hq] at hget ⊢
          exact hget
        · rw [if_neg hq] at hget ⊢
          exact ih hget

/-! ## Registry lookups after `buildRegistry` -/

theorem get_buildRegistry_action (g : FormGraph) (gd : GlobalData) :
    DataSourceRegistry.get (buildRegistry g (some gd))
      "global-action-properties" = some (DataSource.GlobalDataSource gd) := by
  have hne : ("global-action-properties" : String) ≠
      DataSource.id (DataSource.OrganizationDataSource gd) := by
    rw [show DataSource.id (DataSource.OrganizationDataSource gd) =
      "global-org-properties" from rfl]
    decide
  unfold buildRegistry
  simp only
  rw [get_register_other _ (DataSource.OrganizationDataSource gd) hne]
  exact get_register_self _ (DataSource.GlobalDataSource gd)

theorem get_buildRegistry_org (g : FormGraph) (gd : GlobalData) :
    DataSourceRegistry.get (buildRegistry g (some gd))
      "global-org-properties" =
      some (DataSource.OrganizationDataSource gd) := by
  unfold buildRegistry
  simp only
  exact get_register_self _ (DataSource.OrganizationDataSource gd)

theorem get_buildRegistry_none {g : FormGraph} {gd : Option GlobalData}
    {d : String}
    (hnoform : ∀ f ∈ FormGraph.values g, f.id ≠ d)
    (hnoglobal : gd = none ∨
      (d ≠ "global-action-properties" ∧ d ≠ "global-org-properties")) :
    DataSourceRegistry.get (buildRegistry g gd) d = none := by
  have hforms : ∀ p ∈ (FormGraph.values g).foldl
      (fun r form => DataSourceRegistry.register r
        (DataSource.FormDataSource form.id form.name form)) [],
      p.1 ≠ d := by
    intro p hp
    rcases foldl_register_key hp with h | ⟨f, hf, hpf⟩
    · exact absurd h (List.not_mem_nil p)
    · rw [hpf]
      exact hnoform f hf
  unfold buildRegistry
  cases gd with
  | none => exact get_none_of_keys hforms
  | some gd =>
    rcases hnoglobal with h | ⟨h1, h2⟩
    · cases h
    · simp only
      rw [get_register_other _ _ h2, get_register_other _ _ h1]
      exact get_none_of_keys hforms

theorem mem_globalSources_of_get {r : DataSourceRegistry} {k : String}
    {s : DataSource} (hget : DataSourceRegistry.get r k = some s)
    (htype : DataSource.type s = DataSourceType.global) :
    s ∈ DataSourceRegistry.getByType r DataSourceType.global := by
  unfold DataSourceRegistry.getByType DataSourceRegistry.getAll
  apply List.mem_filter.mpr
  refine ⟨List.mem_map.mpr ⟨(k, s), get_mem hget, rfl⟩, ?_⟩
  exact decide_eq_true htype

/-! ## Claim C10: the empty-string target is the nothing-selected state -/

/-- C10: `useDataSources` with the empty string as target returns three
empty lists — exactly as with a null target — for every graph (even one
containing a form keyed by the empty string) and snapshot, because the JS
guard `if (!targetFormId)` treats `""` as falsy. -/
theorem empty_string_target_yields_empty (g : FormGraph)
    (gd : Option GlobalData) :
    useDataSources (some "") g gd =
      { directDependencies := [], transitiveDependencies := [],
        globalSources := [] } ∧
      useDataSources (some "") g gd = useDataSources none g gd := by
  constructor <;> rfl

/-! ## Claim C2: null or missing target -/

/-- C2 counterexample: with target `"x"` absent from the (empty) graph and
a snapshot supplied, the global bucket holds the two registered global
sources, so the result is not three empty lists. -/
theorem missing_target_counterexample :
    (useDataSources (some "x") []
        (some { actionProperties := [], clientOrgProperties := []
          })).globalSources =
      [DataSource.GlobalDataSource
        { actionProperties := [], clientOrgProperties := [] },
       DataSource.OrganizationDataSource
        { actionProperties := [], clientOrgProperties := [] }] ∧
      useDataSources (some "x") []
          (some { actionProperties := [], clientOrgProperties := [] }) ≠
        { directDependencies := [], transitiveDependencies := [],
          globalSources := [] } := by
  decide

/-- C2 (amended): a null target returns three empty lists regardless of
graph and snapshot; a non-null target absent from the graph yields empty
direct and transitive buckets, while the global bucket still holds
whatever global sources the snapshot registered. -/
theorem null_or_missing_target (g : FormGraph) (gd : Option GlobalData) :
    useDataSources none g gd =
      { directDependencies := [], transitiveDependencies := [],
        globalSources := [] } ∧
      ∀ t, g.findForm t = none →
        (useDataSources (some t) g gd).directDependencies = [] ∧
        (useDataSources (some t) g gd).transitiveDependencies = [] := by
  refine ⟨rfl, fun t ht => ?_⟩
  by_cases he : t = ""
  · subst he
    exact ⟨rfl, rfl⟩
  · have hdirect : getDirectDependencies t g = [] := by
      unfold getDirectDependencies
      rw [ht]
    have hall : getDependencies t g = [] := by
      unfold getDependencies
      have hstep := getDependenciesAux_step g
        ((g.map (fun p => p.2.dependencies.length)).sum) t
      rw [ht] at hstep
      have hfuel : depFuel g =
          (g.map (fun p => p.2.dependencies.length)).sum + 1 := rfl
      rw [hfuel, hstep]
      rfl
    have htrans : getTransitiveDependencies t g = [] := by
      unfold getTransitiveDependencies
      rw [hall]
      rfl
    simp [useDataSources, he, hdirect, htrans]

/-! ## Claim C6: dangling dependency identifiers and the direct bucket -/

/-- C6 counterexample graph: one form whose only dependency is the fixed
global-action id, for which no form record exists. -/
def gGhostGlobal : FormGraph :=
  [("A", { id := "A", name := "A", fields := [],
           dependencies := ["global-action-properties"] })]

/-- C6 counterexample: `"global-action-properties"` is a declared
dependency with no corresponding form record, yet with a snapshot supplied
the direct bucket does not exclude it — the registry resolves it to the
global-backed source (the overwrite described by C9). -/
theorem ghost_exclusion_counterexample :
    (∀ f ∈ FormGraph.values gGhostGlobal,
        f.id ≠ "global-action-properties") ∧
      "global-action-properties" ∈ getDirectDependencies "A" gGhostGlobal ∧
      (useDataSources (some "A") gGhostGlobal
          (some { actionProperties := [], clientOrgProperties := []
            })).directDependencies =
        [DataSource.GlobalDataSource
          { actionProperties := [], clientOrgProperties := [] }] := by
  decide

/-- C6 (amended): a declared dependency identifier with no corresponding
form record is included in `ResolveDirect`'s raw set but excluded from the
direct bucket, provided no source at all is registered under it — that is,
unless it is one of the two fixed global source identifiers while a
snapshot is supplied (in which case the global-backed source stands in,
see C9). -/
theorem ghost_dependency_dropped (t d : String) (g : FormGraph)
    (gd : Option GlobalData) (form : Form)
    (hfind : g.findForm t = some form)
    (hd : d ∈ form.dependencies)
    (hnoform : ∀ f ∈ FormGraph.values g, f.id ≠ d)
    (hnoglobal : gd = none ∨
      (d ≠ "global-action-properties" ∧ d ≠ "global-org-properties")) :
    d ∈ getDirectDependencies t g ∧
      ∀ s ∈ (useDataSources (some t) g gd).directDependencies,
        DataSource.id s ≠ d := by
  constructor
  · unfold getDirectDependencies
    rw [hfind]
    exact mem_foldl_insertUniq.mpr (Or.inr hd)
  · intro s hs hid
    by_cases he : t = ""
    · subst he
      simp [useDataSources] at hs
    · simp only [useDataSources, if_neg he] at hs
      obtain ⟨d', hd', hget⟩ := List.mem_filterMap.mp hs
      have hids : DataSource.id s = d' :=
        get_id (RegWF_buildRegistry g gd) hget
      rw [hid] at hids
      rw [← hids] at hget
      rw [get_buildRegistry_none hnoform hnoglobal] at hget
      cases hget

/-- Form and graph used by the C6 witness. -/
def tFormGhost : Form :=
  { id := "T", name := "T", fields := [], dependencies := ["ghost"] }

/-- Graph used by the C6 witness. -/
def gGhost : FormGraph := [("T", tFormGhost)]

theorem ghost_dependency_dropped_witness :
    "ghost" ∈ getDirectDependencies "T" gGhost ∧
      ∀ s ∈ (useDataSources (some "T") gGhost
          (some { actionProperties := ["status"],
                  clientOrgProperties := ["org_name"] })).directDependencies,
        DataSource.id s ≠ "ghost" :=
  ghost_dependency_dropped "T" "ghost" gGhost
    (some { actionProperties := ["status"],
            clientOrgProperties := ["org_name"] })
    tFormGhost (by decide) (by decide) (by decide) (Or.inr (by decide))

/-! ## Claim C7: global property formatting -/

/-- C7: every snake_case property of the action group becomes a DataField
whose label is the Title-Case rendering (split on underscore, first letter
of each token upper-cased, tokens rejoined with single spaces), whose type
is the text tag and whose path is the `"Action"` path prefix, a dot, and
that label; concretely `"created_at"` yields label `"Created At"` and path
`"Action.Created At"`. -/
theorem global_fields_title_case :
    (∀ gd : GlobalData,
      List.Forall₂ (fun prop field =>
          field.id = prop ∧ field.label = formatPropertyName prop ∧
          field.type = FieldType.text ∧
          field.path = "Action." ++ field.label)
        gd.actionProperties
        (DataSource.getFields (DataSource.GlobalDataSource gd))) ∧
      formatPropertyName "created_at" = "Created At" ∧
      DataSource.getFields (DataSource.GlobalDataSource
          { actionProperties := ["created_at"],
            clientOrgProperties := [] }) =
        [{ id := "created_at", label := "Created At",
           type := FieldType.text, path := "Action.Created At" }] := by
  refine ⟨fun gd => ?_, by decide, by decide⟩
  unfold DataSource.getFields
  rw [List.forall₂_map_right_iff, List.forall₂_same]
  intro prop _
  exact ⟨rfl, rfl, rfl, rfl⟩

/-! ## Claim C8: form-backed field listing -/

/-- C8: a form-backed source lists exactly one DataField per field of the
wrapped Form, in the Form's field order with no filtering or
deduplication, keeping the field's id, label and type and stamping path
`"<display name>.<field label>"`; concretely a source named `"Form B"`
over a field labelled `"Email"` yields path `"Form B.Email"`. -/
theorem form_fields_one_to_one :
    (∀ (i n : String) (form : Form),
      List.Forall₂ (fun (fld : FormField) (field : DataField) =>
          field.id = fld.id ∧ field.label = fld.label ∧
          field.type = fld.type ∧ field.path = n ++ "." ++ fld.label)
        form.fields
        (DataSource.getFields (DataSource.FormDataSource i n form))) ∧
      DataSource.getFields (DataSource.FormDataSource "form-b" "Form B"
          { id := "form-b", name := "Form B",
            fields := [{ id := "email", label := "Email",
                         type := FieldType.email }],
            dependencies := [] }) =
        [{ id := "email", label := "Email", type := FieldType.email,
           path := "Form B.Email" }] := by
  refine ⟨fun i n form => ?_, by decide⟩
  unfold DataSource.getFields
  rw [List.forall₂_map_right_iff, List.forall₂_same]
  intro fld _
  exact ⟨rfl, rfl, rfl, rfl⟩

/-! ## Claim C9: the global sources overwrite same-id form sources -/

/-- C9: if the graph has a form whose id equals one of the two fixed
global source identifiers and a snapshot is supplied, the later-registered
global-backed source overwrites the form-backed one in the registry
(`Map.set`, last write wins), so a direct (resp. transitive) dependency of
the target on that id puts the global-typed source — which also appears in
the global bucket — into the direct (resp. transitive) bucket, and no
form-typed source with that id can appear there. -/
theorem registry_overwrite_prefers_global (t gid : String) (g : FormGraph)
    (gd : GlobalData)
    (ht : t ≠ "")
    (hgid : gid = "global-action-properties" ∨
      gid = "global-org-properties")
    (hform : ∃ f ∈ FormGraph.values g, f.id = gid) :
    (gid ∈ getDirectDependencies t g →
      ∃ s, s ∈ (useDataSources (some t) g (some gd)).directDependencies ∧
        DataSource.id s = gid ∧
        DataSource.type s = DataSourceType.global ∧
        s ∈ (useDataSources (some t) g (some gd)).globalSources) ∧
    (gid ∈ getTransitiveDependencies t g →
      ∃ s, s ∈ (useDataSources (some t) g
          (some gd)).transitiveDependencies ∧
        DataSource.id s = gid ∧
        DataSource.type s = DataSourceType.global ∧
        s ∈ (useDataSources (some t) g (some gd)).globalSources) ∧
    (∀ s, (s ∈ (useDataSources (some t) g (some gd)).directDependencies ∨
        s ∈ (useDataSources (some t) g (some gd)).transitiveDependencies) →
      DataSource.id s = gid →
      DataSource.type s ≠ DataSourceType.form) := by
  obtain ⟨S, hget, htype⟩ : ∃ S,
      DataSourceRegistry.get (buildRegistry g (some gd)) gid = some S ∧
        DataSource.type S = DataSourceType.global := by
    rcases hgid with rfl | rfl
    · exact ⟨_, get_buildRegistry_action g gd, rfl⟩
    · exact ⟨_, get_buildRegistry_org g gd, rfl⟩
  have hid : DataSource.id S = gid :=
    get_id (RegWF_buildRegistry g (some gd)) hget
  have hglobal : S ∈ (useDataSources (some t) g (some gd)).globalSources := by
    simp only [useDataSources, if_neg ht]
    exact mem_globalSources_of_get hget htype
  refine ⟨fun hmem => ?_, fun hmem => ?_, fun s hs hsid => ?_⟩
  · refine ⟨S, ?_, hid, htype, hglobal⟩
    simp only [useDataSources, if_neg ht]
    exact List.mem_filterMap.mpr ⟨gid, hmem, hget⟩
  · refine ⟨S, ?_, hid, htype, hglobal⟩
    simp only [useDataSources, if_neg ht]
    exact List.mem_filterMap.mpr ⟨gid, hmem, hget⟩
  · have hsS : s = S := by
      rcases hs with hs | hs <;>
      · simp only [useDataSources, if_neg ht] at hs
        obtain ⟨d', _, hget'⟩ := List.mem_filterMap.mp hs
        have hd' : DataSource.id s = d' :=
          get_id (RegWF_buildRegistry g (some gd)) hget'
        rw [hsid] at hd'
        rw [← hd', hget] at hget'
        exact (Option.some_inj.mp hget').symm
    rw [hsS, htype]
    decide

/-- Graph used by the C9 witness: the target depends on
`"global-action-properties"`, and a form record with that very id exists. -/
def gOverwrite : FormGraph :=
  [("T", { id := "T", name := "T", fields := [],
           dependencies := ["global-action-properties"] }),
   ("global-action-properties",
    { id := "global-action-properties", name := "Shadowed", fields := [],
      dependencies := [] })]

theorem registry_overwrite_prefers_global_witness :
    ∃ s, s ∈ (useDataSources (some "T") gOverwrite
        (some { actionProperties := [],
                clientOrgProperties := [] })).directDependencies ∧
      DataSource.id s = "global-action-properties" ∧
      DataSource.type s = DataSourceType.global ∧
      s ∈ (useDataSources (some "T") gOverwrite
        (some { actionProperties := [],
                clientOrgProperties := [] })).globalSources :=
  (registry_overwrite_prefers_global "T" "global-action-properties"
      gOverwrite { actionProperties := [], clientOrgProperties := [] }
      (by decide) (Or.inl rfl) (by decide)).1 (by decide)

theorem null_or_missing_target_witness :
    useDataSources none []
        (some { actionProperties := [], clientOrgProperties := [] }) =
      { directDependencies := [], transitiveDependencies := [],
        globalSources := [] } ∧
      (useDataSources (some "x") []
          (some { actionProperties := [],
                  clientOrgProperties := [] })).directDependencies = [] ∧
      (useDataSources (some "x") []
          (some { actionProperties := [],
                  clientOrgProperties := [] })).transitiveDependencies =
        [] :=
  have h := null_or_missing_target []
    (some { actionProperties := [], clientOrgProperties := [] })
  ⟨h.1, (h.2 "x" rfl).1, (h.2 "x" rfl).2⟩

end FormPrefill
